import Mathlib

/-!
Verification of the epidemic peer-sampling service of the hyperbase
repository (`src/api/internal/gossip/src/service/peer_sampling.rs`).

The service-level functions (`run_receiver_task` body, `run_sender_task`
body, `build_local_view_buffer`) are embedded from the source file.
The `View` / `Peer` / `Message` / `PeerSamplingConfig` types and the
`View` methods are not part of the provided sources (only their callers
are), so they are modelled from the specification document, as marked in
the doc comments.  Randomness (shuffling, random removal, sleep jitter)
is injected explicitly as extra arguments, so every operation is a pure
function and theorems quantify over all random choices.
-/

namespace Gossip

/-- Modelled from the spec: a `Peer` is an identity record (`id`,
`address`) plus a freshness counter `age`.  `Uuid` and `SocketAddr` are
modelled as `Nat`. -/
structure Peer where
  id : Nat
  address : Nat
  age : Nat
deriving DecidableEq

/-- Modelled from the spec: a `View` holds the local node id, the local
address, and the ordered sequence of resident `Peer` entries. -/
structure View where
  local_id : Nat
  local_address : Nat
  peers : List Peer
deriving DecidableEq

/-- Modelled from the spec: the immutable peer-sampling configuration. -/
structure PeerSamplingConfig where
  view_size : Nat
  healing_factor : Nat
  swapping_factor : Nat
  period : Nat
  period_deviation : Nat
  push : Bool
  pull : Bool
deriving DecidableEq

/-- The kind carried by a sampling message (`MessageKind` in the source). -/
inductive MessageKind where
  | request
  | response
deriving DecidableEq

/-- The wire message: `Message::new(local_address, MessageV::Sampling { kind, data })`
flattened to its three relevant fields. -/
structure Message where
  sender_address : Nat
  kind : MessageKind
  data : Option (List Peer)
deriving DecidableEq

/-- Warnings logged by the two service loops (`hb_log::warn` call sites). -/
inductive Warn where
  | sendFailed
  | zeroPeers
  | nonePeers
  | noPeerFound
deriving DecidableEq

/-- The observable effects of one iteration of a service loop: the
messages handed to `client::send` (destination, message), the warnings
logged, the sleep scheduled (sender loop only), and the resident view
after the iteration. -/
structure StepResult where
  sends : List (Nat × Message)
  warns : List Warn
  sleep : Option Nat
  view : View
deriving DecidableEq

/-- Modelled from the spec: `clone` of a `View` produces an equal,
independent value (Rust `Clone`). -/
def View.clone (v : View) : View := v

/-- Modelled from the spec: `add_with_local` returns a new `View` whose
entries are the resident entries plus a synthetic local-node entry with
age 0, appended at the end. -/
def View.add_with_local (v : View) : View :=
  View.mk v.local_id v.local_address (v.peers ++ [Peer.mk v.local_id v.local_address 0])

/-- Modelled from the spec: one selection-shuffle pass over a list,
driven by a list of injected random numbers.  Each step picks the
element at a random position and moves it to the front of the result;
for every choice of random numbers the output is a permutation of the
input. -/
def shuffle : List Nat → List Peer → List Peer
  | _, [] => []
  | [], l => l
  | r :: rs, p :: ps =>
    let x := (p :: ps).getD (r % (ps.length + 1)) p
    x :: shuffle rs ((p :: ps).erase x)

/-- Modelled from the spec: `permute` applies a uniform random
permutation to the entry sequence; the random choices are injected. -/
def View.permute (v : View) (rand : List Nat) : View :=
  View.mk v.local_id v.local_address (shuffle rand v.peers)

/-- Modelled from the spec: the entry of maximal age; ties are broken by
keeping the first such entry in sequence order.  Returns `none` iff the
list is empty. -/
def oldestPeer? : List Peer → Option Peer
  | [] => none
  | p :: ps =>
    match oldestPeer? ps with
    | none => some p
    | some q => if q.age > p.age then some q else some p

/-- Modelled from the spec: `move_oldest_to_end` moves the single oldest
entry (if any) to the tail of the sequence. -/
def View.move_oldest_to_end (v : View) : View :=
  match oldestPeer? v.peers with
  | none => v
  | some x => View.mk v.local_id v.local_address (v.peers.erase x ++ [x])

/-- Modelled from the spec: `head(n)` truncates to the first `n` entries. -/
def View.head (v : View) (n : Nat) : List Peer :=
  v.peers.take n

/-- Modelled from the spec: `increase_age` increments the age of every
resident entry by 1. -/
def View.increase_age (v : View) : View :=
  View.mk v.local_id v.local_address
    (v.peers.map (fun p => Peer.mk p.id p.address (p.age + 1)))

/-- Modelled from the spec: `select_peer` returns the peer with the
highest age (ties broken by sequence order), `none` iff the view is
empty. -/
def View.select_peer (v : View) : Option Peer :=
  oldestPeer? v.peers

/-- Modelled from the spec: merging one received descriptor into the
entry list.  The local node id is never inserted; on an id conflict the
entry with the lower age is kept and its age is reset to 0; a freshly
learned id is appended with age reset to 0. -/
def mergePeer (lid : Nat) (entries : List Peer) (p : Peer) : List Peer :=
  if p.id = lid then entries
  else if entries.any (fun q => q.id == p.id) then
    entries.map (fun q =>
      if q.id == p.id then
        (if p.age < q.age then Peer.mk p.id p.address 0 else Peer.mk q.id q.address 0)
      else q)
  else entries ++ [Peer.mk p.id p.address 0]

/-- Modelled from the spec: remove the single oldest entry (healing step
unit). -/
def removeOldest (l : List Peer) : List Peer :=
  match oldestPeer? l with
  | none => l
  | some x => l.erase x

/-- Modelled from the spec: remove the `k` oldest entries. -/
def removeOldItems : Nat → List Peer → List Peer
  | 0, l => l
  | k + 1, l => removeOldItems k (removeOldest l)

/-- Modelled from the spec: remove `k` entries at injected random
positions (the swapping step). -/
def removeRandom : List Nat → Nat → List Peer → List Peer
  | _, 0, l => l
  | [], _ + 1, l => l
  | r :: rs, k + 1, l => removeRandom rs k (l.eraseIdx (r % l.length))

/-- Modelled from the spec: `select` merges an inbound buffer into the
resident view: union de-duplicated by id (fresher-wins, age reset), the
local id never inserted; when the union exceeds `view_size`, first up to
`healing_factor` oldest entries are removed, then up to
`swapping_factor` entries at random positions, and any residual overflow
is trimmed from the newest-arriving tail. -/
def View.select (v : View) (c h s : Nat) (received : List Peer) (rand : List Nat) : View :=
  let merged := received.foldl (mergePeer v.local_id) v.peers
  if c < merged.length then
    let healed := removeOldItems (min h (merged.length - c)) merged
    View.mk v.local_id v.local_address
      ((removeRandom rand (min s (healed.length - c)) healed).take c)
  else
    View.mk v.local_id v.local_address merged

/-- Modelled from the spec: first-occurrence de-duplication by id,
used by `View::new` to coalesce duplicate bootstrap entries. -/
def dedupByIdAux (seen : List Nat) : List Peer → List Peer
  | [] => []
  | p :: ps =>
    if p.id ∈ seen then dedupByIdAux seen ps
    else p :: dedupByIdAux (p.id :: seen) ps

/-- Modelled from the spec: `View::new(local_id, local_address, peers)`
builds the initial sample from the bootstrap peer list, coalescing
duplicate ids. -/
def View.new (lid laddr : Nat) (peers : List Peer) : View :=
  View.mk lid laddr (dedupByIdAux [] peers)

/-- From the source (`peer_sampling.rs`, `build_local_view_buffer`):
clone the resident view, append the local descriptor, permute, move the
oldest entry to the end, truncate to `view_size`.  The borrow of the
resident view is immutable; the pipeline runs on the clone. -/
def build_local_view_buffer (cfg : PeerSamplingConfig) (view : View) (rand : List Nat) :
    List Peer :=
  let v := (View.clone view).add_with_local
  let v := v.permute rand
  let v := v.move_oldest_to_end
  v.head cfg.view_size

/-- From the source (`peer_sampling.rs`, body of the per-message task in
`run_receiver_task`): if the message is a `Request` and `pull` is set,
build a buffer from the (pre-merge) view and send a `Response` carrying
it to the sender, logging a warning on send failure; then merge the
received peers via `select` when present and non-empty (warning
otherwise); finally `increase_age` exactly once.  The outcome of
`client::send` is injected as `sendOk`. -/
def run_receiver_step (laddr : Nat) (cfg : PeerSamplingConfig) (view : View)
    (saddr : Nat) (kind : MessageKind) (peers : Option (List Peer))
    (bufRand selRand : List Nat) (sendOk : Bool) : StepResult :=
  let sendsWarns :=
    if (kind == MessageKind.request) && cfg.pull then
      ([(saddr, Message.mk laddr MessageKind.response (some (build_local_view_buffer cfg view bufRand)))],
       if sendOk then ([] : List Warn) else [Warn.sendFailed])
    else ([], [])
  let viewWarns :=
    match peers with
    | some ps =>
      if 0 < ps.length then
        (view.select cfg.view_size cfg.healing_factor cfg.swapping_factor ps selRand,
         ([] : List Warn))
      else (view, [Warn.zeroPeers])
    | none => (view, [Warn.nonePeers])
  StepResult.mk sendsWarns.1 (sendsWarns.2 ++ viewWarns.2) none viewWarns.1.increase_age

/-- From the source (`peer_sampling.rs`, one iteration of the loop in
`run_sender_task`): if `select_peer` yields a peer, send it a `Request`
carrying the local view buffer when `push` is set and no payload
otherwise, log a warning on send failure, and `increase_age`; if no peer
is found, log a warning and leave the view untouched; in both cases
schedule the jittered sleep `period + gen_range(0..=period_deviation)`
(the random draw is injected as `jitter`). -/
def run_sender_step (laddr : Nat) (cfg : PeerSamplingConfig) (view : View)
    (bufRand : List Nat) (jitter : Nat) (sendOk : Bool) : StepResult :=
  let sendsWarnsView :=
    match view.select_peer with
    | some peer =>
      if cfg.push then
        ([(peer.address, Message.mk laddr MessageKind.request (some (build_local_view_buffer cfg view bufRand)))],
         (if sendOk then ([] : List Warn) else [Warn.sendFailed]), view.increase_age)
      else
        ([(peer.address, Message.mk laddr MessageKind.request none)],
         (if sendOk then ([] : List Warn) else [Warn.sendFailed]), view.increase_age)
    | none => ([], [Warn.noPeerFound], view)
  let dev :=
    match cfg.period_deviation with
    | 0 => 0
    | v => jitter % (v + 1)
  StepResult.mk sendsWarnsView.1 sendsWarnsView.2.1 (some (cfg.period + dev)) sendsWarnsView.2.2

/-- `true` iff some resident entry carries the local node id. -/
def hasSelfEntry (lid : Nat) (v : View) : Bool :=
  v.peers.any (fun q => q.id == lid)

/-- The states reachable from a freshly constructed view by any sequence
of `select` (with arbitrary received lists and random choices) and
`increase_age` calls. -/
inductive Reachable (lid laddr : Nat) (bootstrap : List Peer) : View → Prop where
  | base : Reachable lid laddr bootstrap (View.new lid laddr bootstrap)
  | sel {v : View} (c h s : Nat) (received : List Peer) (rand : List Nat) :
      Reachable lid laddr bootstrap v →
      Reachable lid laddr bootstrap (v.select c h s received rand)
  | age {v : View} :
      Reachable lid laddr bootstrap v →
      Reachable lid laddr bootstrap v.increase_age


/-! ### Helper lemmas -/

theorem shuffle_perm (rand : List Nat) : ∀ l : List Peer, List.Perm (shuffle rand l) l := by
  induction rand with
  | nil =>
    intro l
    cases l with
    | nil => simp [shuffle]
    | cons p ps => simp [shuffle]
  | cons r rs ih =>
    intro l
    cases l with
    | nil => simp [shuffle]
    | cons p ps =>
      have hlt : r % (ps.length + 1) < (p :: ps).length := by
        simp only [List.length_cons]
        exact Nat.mod_lt _ (Nat.succ_pos _)
      have hx : (p :: ps).getD (r % (ps.length + 1)) p ∈ p :: ps := by
        rw [List.getD_eq_getElem _ _ hlt]
        exact List.getElem_mem hlt
      simp only [shuffle]
      exact List.Perm.trans (List.Perm.cons _ (ih _)) (List.perm_cons_erase hx).symm

theorem oldestPeer?_mem : ∀ {l : List Peer} {x : Peer}, oldestPeer? l = some x → x ∈ l := by
  intro l
  induction l with
  | nil => intro x h; simp [oldestPeer?] at h
  | cons p ps ih =>
    intro x h
    simp only [oldestPeer?] at h
    cases hops : oldestPeer? ps with
    | none =>
      rw [hops] at h
      simp only [Option.some.injEq] at h
      simp [← h]
    | some q =>
      rw [hops] at h
      by_cases hq : q.age > p.age
      · simp only [hq, if_true, Option.some.injEq] at h
        exact List.mem_cons_of_mem _ (h ▸ ih hops)
      · simp only [hq, if_false, Option.some.injEq] at h
        simp [← h]

theorem move_oldest_to_end_perm (v : View) :
    List.Perm (View.move_oldest_to_end v).peers v.peers := by
  unfold View.move_oldest_to_end
  cases h : oldestPeer? v.peers with
  | none => exact List.Perm.refl _
  | some x =>
    simp only
    exact List.Perm.trans (List.perm_append_singleton _ _)
      (List.perm_cons_erase (oldestPeer?_mem h)).symm

theorem build_local_view_buffer_eq (cfg : PeerSamplingConfig) (view : View) (rand : List Nat) :
    build_local_view_buffer cfg view rand
      = ((view.add_with_local.permute rand).move_oldest_to_end).peers.take cfg.view_size := rfl

theorem buffer_stage_perm (view : View) (rand : List Nat) :
    List.Perm ((view.add_with_local.permute rand).move_oldest_to_end).peers
      (view.peers ++ [Peer.mk view.local_id view.local_address 0]) := by
  refine List.Perm.trans (move_oldest_to_end_perm _) ?_
  exact shuffle_perm rand _

/-! ### Claim theorems -/

/-- C1: `build_local_view_buffer` computes its result by, in order,
cloning the resident view, appending the local descriptor with age 0
(`add_with_local`), permuting, moving the single oldest entry to the
tail, and truncating to the first `view_size` entries; and the call
leaves the resident view unchanged (processing the same message with
and without the buffer-building `pull` branch yields the same resident
view). -/
theorem buffer_pipeline_order (cfg : PeerSamplingConfig) (view : View) (rand : List Nat)
    (laddr saddr : Nat) (kind : MessageKind) (peers : Option (List Peer))
    (selRand : List Nat) (sendOk : Bool) (c h s per dev : Nat) (push : Bool) :
    build_local_view_buffer cfg view rand
      = (((View.clone view).add_with_local.permute rand).move_oldest_to_end).head cfg.view_size
    ∧ View.clone view = view
    ∧ (run_receiver_step laddr (PeerSamplingConfig.mk c h s per dev push true)
        view saddr kind peers rand selRand sendOk).view
      = (run_receiver_step laddr (PeerSamplingConfig.mk c h s per dev push false)
        view saddr kind peers rand selRand sendOk).view := by
  refine ⟨rfl, rfl, ?_⟩
  cases peers <;> rfl

/-- C2: after any call to `View::select(view_size, healing_factor,
swapping_factor, received_peers)`, the number of resident entries is at
most `view_size`; this holds for every view state (in particular every
reachable one), every received list and every random choice. -/
theorem select_bounded_size (v : View) (c h s : Nat) (received : List Peer)
    (rand : List Nat) :
    (View.select v c h s received rand).peers.length ≤ c := by
  simp only [View.select]
  split
  · simp only [List.length_take]
    exact min_le_left _ _
  · next hc => exact Nat.le_of_not_lt hc

/-- C6: the passive handler sends a reply iff the inbound kind is
`Request` and `pull` is set; the reply is a single `Response` to the
inbound sender carrying `Some(build_local_view_buffer(..))`; in
particular an inbound `Response` never triggers a send. -/
theorem receiver_reply_condition (laddr saddr : Nat) (cfg : PeerSamplingConfig) (view : View)
    (kind : MessageKind) (peers : Option (List Peer)) (bufRand selRand : List Nat)
    (sendOk : Bool) :
    (run_receiver_step laddr cfg view saddr kind peers bufRand selRand sendOk).sends
      = (if (kind == MessageKind.request) && cfg.pull then
          [(saddr, Message.mk laddr MessageKind.response
            (some (build_local_view_buffer cfg view bufRand)))]
         else []) := by
  simp only [run_receiver_step]
  split <;> rfl

/-- C10: the `Response` sent by the passive handler is built from the
view state prior to merging, so two inbound `Request`s identical except
for their `peers` payload, processed from the same view with the same
random choices, cause identical outbound messages. -/
theorem response_independent_of_request_peers (laddr saddr : Nat) (cfg : PeerSamplingConfig)
    (view : View) (peers1 peers2 : Option (List Peer)) (bufRand selRand : List Nat)
    (sendOk : Bool) :
    (run_receiver_step laddr cfg view saddr MessageKind.request peers1 bufRand selRand sendOk).sends
      = (run_receiver_step laddr cfg view saddr MessageKind.request peers2 bufRand selRand sendOk).sends := rfl

/-- C4: the passive handler merges via `select` exactly when the message
carries a non-empty `Some` peer list; `Some []` and `None` each leave
exactly their own warning and skip the merge; and `increase_age` is
applied exactly once, after the optional merge. -/
theorem receiver_merge_behavior (laddr saddr : Nat) (cfg : PeerSamplingConfig) (view : View)
    (kind : MessageKind) (peers : Option (List Peer)) (bufRand selRand : List Nat)
    (sendOk : Bool) :
    (run_receiver_step laddr cfg view saddr kind peers bufRand selRand sendOk).view
      = (match peers with
         | some ps =>
           if 0 < ps.length then
             view.select cfg.view_size cfg.healing_factor cfg.swapping_factor ps selRand
           else view
         | none => view).increase_age
    ∧ (run_receiver_step laddr cfg view saddr kind peers bufRand selRand sendOk).warns.filter
        (fun w => w == Warn.zeroPeers || w == Warn.nonePeers)
      = (match peers with
         | some ps => if 0 < ps.length then [] else [Warn.zeroPeers]
         | none => [Warn.nonePeers]) := by
  constructor
  · cases peers with
    | none => rfl
    | some ps => by_cases hl : 0 < ps.length <;> simp [run_receiver_step, hl]
  · simp only [run_receiver_step]
    cases peers with
    | none =>
      cases sendOk <;>
        by_cases hk : ((kind == MessageKind.request) && cfg.pull) = true <;>
          simp [hk]
    | some ps =>
      by_cases hl : 0 < ps.length <;> cases sendOk <;>
        by_cases hk : ((kind == MessageKind.request) && cfg.pull) = true <;>
          simp [hk, hl]

/-- C5: in an active-loop iteration where `select_peer` yields a peer,
exactly one `Request` is sent to that peer, carrying the local view
buffer iff `push` is set, and the view is aged once; where `select_peer`
yields `none`, nothing is sent, a warning is logged, and the view is
untouched; in both cases the loop schedules the jittered sleep
`period + d` with `d ≤ period_deviation`. -/
theorem sender_round_behavior (laddr : Nat) (cfg : PeerSamplingConfig) (view : View)
    (bufRand : List Nat) (jitter : Nat) (sendOk : Bool) :
    (match view.select_peer with
     | some p =>
       (run_sender_step laddr cfg view bufRand jitter sendOk).sends
         = [(p.address, Message.mk laddr MessageKind.request
             (if cfg.push then some (build_local_view_buffer cfg view bufRand) else none))]
       ∧ (run_sender_step laddr cfg view bufRand jitter sendOk).view = view.increase_age
     | none =>
       (run_sender_step laddr cfg view bufRand jitter sendOk).sends = []
       ∧ Warn.noPeerFound ∈ (run_sender_step laddr cfg view bufRand jitter sendOk).warns
       ∧ (run_sender_step laddr cfg view bufRand jitter sendOk).view = view)
    ∧ ∃ d, d ≤ cfg.period_deviation
        ∧ (run_sender_step laddr cfg view bufRand jitter sendOk).sleep
            = some (cfg.period + d) := by
  constructor
  · cases hsel : view.select_peer with
    | some p => cases hpush : cfg.push <;> simp [run_sender_step, hsel, hpush]
    | none => simp [run_sender_step, hsel]
  · refine ⟨(match cfg.period_deviation with | 0 => 0 | v => jitter % (v + 1)), ?_, ?_⟩
    · cases hdev : cfg.period_deviation with
      | zero => simp
      | succ n =>
        simp only
        exact Nat.le_of_lt_succ (Nat.mod_lt _ (Nat.succ_pos _))
    · rfl

/-- C7: a transport send failure is logged as a warning, is never
retried within the round (at most one send per iteration), and does not
prevent the subsequent view mutations: the resident view after either
step is independent of the send outcome. -/
theorem send_failure_nonfatal (laddr saddr : Nat) (cfg : PeerSamplingConfig) (view : View)
    (kind : MessageKind) (peers : Option (List Peer)) (bufRand selRand : List Nat)
    (jitter : Nat) (sendOk : Bool) (p : Peer) (hp : view.select_peer = some p) :
    (run_receiver_step laddr cfg view saddr kind peers bufRand selRand sendOk).view
      = (run_receiver_step laddr cfg view saddr kind peers bufRand selRand true).view
    ∧ (run_sender_step laddr cfg view bufRand jitter sendOk).view
      = (run_sender_step laddr cfg view bufRand jitter true).view
    ∧ (run_receiver_step laddr cfg view saddr kind peers bufRand selRand sendOk).sends.length ≤ 1
    ∧ (run_sender_step laddr cfg view bufRand jitter sendOk).sends.length ≤ 1
    ∧ Warn.sendFailed ∈ (run_receiver_step laddr
        (PeerSamplingConfig.mk cfg.view_size cfg.healing_factor cfg.swapping_factor
          cfg.period cfg.period_deviation cfg.push true)
        view saddr MessageKind.request peers bufRand selRand false).warns
    ∧ Warn.sendFailed ∈ (run_sender_step laddr cfg view bufRand jitter false).warns := by
  refine ⟨?_, ?_, ?_, ?_, ?_, ?_⟩
  · cases peers <;> rfl
  · cases hsel : view.select_peer <;> cases hpush : cfg.push <;>
      simp [run_sender_step, hsel, hpush]
  · simp only [run_receiver_step]
    by_cases hk : ((kind == MessageKind.request) && cfg.pull) = true <;> simp [hk]
  · cases hsel : view.select_peer <;> cases hpush : cfg.push <;>
      simp [run_sender_step, hsel, hpush]
  · simp [run_receiver_step]
  · cases hpush : cfg.push <;> simp [run_sender_step, hp, hpush]

/-! ### No-self-entry invariant -/

/-- No entry of the list carries the local id. -/
def noSelfL (lid : Nat) (l : List Peer) : Prop := ∀ q ∈ l, q.id ≠ lid

theorem noSelfL_of_sublist {lid : Nat} {l m : List Peer} (hs : List.Sublist l m)
    (h : noSelfL lid m) : noSelfL lid l :=
  fun q hq => h q (hs.subset hq)

theorem noSelfL_mergePeer {lid : Nat} {entries : List Peer} (p : Peer)
    (h : noSelfL lid entries) : noSelfL lid (mergePeer lid entries p) := by
  unfold mergePeer
  split
  · exact h
  · next hpl =>
    split
    · intro q hq
      rcases List.mem_map.mp hq with ⟨q0, hq0, hfq⟩
      by_cases hid : (q0.id == p.id) = true
      · rw [if_pos hid] at hfq
        by_cases hage : p.age < q0.age
        · rw [if_pos hage] at hfq
          rw [← hfq]
          exact hpl
        · rw [if_neg hage] at hfq
          rw [← hfq]
          exact h q0 hq0
      · rw [if_neg hid] at hfq
        rw [← hfq]
        exact h q0 hq0
    · intro q hq
      rcases List.mem_append.mp hq with hq | hq
      · exact h q hq
      · rw [List.mem_singleton.mp hq]
        exact hpl

theorem noSelfL_foldl {lid : Nat} (received : List Peer) :
    ∀ {entries : List Peer}, noSelfL lid entries →
      noSelfL lid (received.foldl (mergePeer lid) entries) := by
  induction received with
  | nil => intro entries h; exact h
  | cons p ps ih => intro entries h; exact ih (noSelfL_mergePeer p h)

theorem removeOldest_sublist (l : List Peer) : List.Sublist (removeOldest l) l := by
  unfold removeOldest
  cases oldestPeer? l with
  | none => exact List.Sublist.refl _
  | some x => exact List.erase_sublist x l

theorem removeOldItems_sublist (k : Nat) : ∀ l : List Peer,
    List.Sublist (removeOldItems k l) l := by
  induction k with
  | zero => intro l; exact List.Sublist.refl _
  | succ n ih =>
    intro l
    exact List.Sublist.trans (ih (removeOldest l)) (removeOldest_sublist l)

theorem removeRandom_sublist (rand : List Nat) : ∀ (k : Nat) (l : List Peer),
    List.Sublist (removeRandom rand k l) l := by
  induction rand with
  | nil =>
    intro k l
    cases k with
    | zero => exact List.Sublist.refl _
    | succ n => exact List.Sublist.refl _
  | cons r rs ih =>
    intro k l
    cases k with
    | zero => exact List.Sublist.refl _
    | succ n =>
      exact List.Sublist.trans (ih n _) (List.eraseIdx_sublist l (r % l.length))

theorem select_local_id (v : View) (c h s : Nat) (received : List Peer) (rand : List Nat) :
    (View.select v c h s received rand).local_id = v.local_id := by
  simp only [View.select]
  split <;> rfl

theorem noSelfL_select {v : View} (c h s : Nat) (received : List Peer) (rand : List Nat)
    (hv : noSelfL v.local_id v.peers) :
    noSelfL v.local_id (View.select v c h s received rand).peers := by
  simp only [View.select]
  split
  · refine noSelfL_of_sublist ?_ (noSelfL_foldl received hv)
    refine List.Sublist.trans (List.take_sublist _ _) ?_
    exact List.Sublist.trans (removeRandom_sublist _ _ _) (removeOldItems_sublist _ _)
  · exact noSelfL_foldl received hv

theorem mem_dedupByIdAux : ∀ {l : List Peer} {seen : List Nat} {q : Peer},
    q ∈ dedupByIdAux seen l → q ∈ l := by
  intro l
  induction l with
  | nil => intro seen q hq; simp [dedupByIdAux] at hq
  | cons p ps ih =>
    intro seen q hq
    simp only [dedupByIdAux] at hq
    split at hq
    · exact List.mem_cons_of_mem _ (ih hq)
    · rcases List.mem_cons.mp hq with hq | hq
      · exact hq ▸ List.mem_cons_self _ _
      · exact List.mem_cons_of_mem _ (ih hq)

/-- C3: starting from a freshly constructed view whose bootstrap list
contains no entry with the local id, every state reachable by any
sequence of `select` (with arbitrary received lists, which may contain
the local id) and `increase_age` calls has no resident entry whose id
equals the local node's id. -/
theorem no_self_entry_reachable (lid laddr : Nat) (bootstrap : List Peer) (v : View)
    (hboot : ∀ p ∈ bootstrap, p.id ≠ lid) (hr : Reachable lid laddr bootstrap v) :
    hasSelfEntry lid v = false := by
  have key : v.local_id = lid ∧ noSelfL lid v.peers := by
    induction hr with
    | base =>
      refine ⟨rfl, ?_⟩
      intro q hq
      exact hboot q (mem_dedupByIdAux hq)
    | sel c h s received rand hr ih =>
      obtain ⟨hid, hns⟩ := ih
      subst hid
      exact ⟨select_local_id _ c h s received rand, noSelfL_select c h s received rand hns⟩
    | age hr ih =>
      obtain ⟨hid, hns⟩ := ih
      subst hid
      refine ⟨rfl, ?_⟩
      intro q hq
      rcases List.mem_map.mp hq with ⟨q0, hq0, hfq⟩
      rw [← hfq]
      exact hns q0 hq0
  obtain ⟨hid, hns⟩ := key
  cases hb : hasSelfEntry lid v with
  | false => rfl
  | true =>
    exfalso
    unfold hasSelfEntry at hb
    rcases List.any_eq_true.mp hb with ⟨q, hq, hbq⟩
    exact hns q hq (by simpa using hbq)

/-! ### Buffer self-inclusion and pipeline shape -/

theorem buffer_perm_of_lt (cfg : PeerSamplingConfig) (view : View) (rand : List Nat)
    (hlen : view.peers.length < cfg.view_size) :
    List.Perm (build_local_view_buffer cfg view rand)
      (view.peers ++ [Peer.mk view.local_id view.local_address 0]) := by
  rw [build_local_view_buffer_eq]
  have hperm := buffer_stage_perm view rand
  have hlength : ((view.add_with_local.permute rand).move_oldest_to_end).peers.length
      ≤ cfg.view_size := by
    rw [hperm.length_eq, List.length_append, List.length_singleton]
    omega
  rw [List.take_of_length_le hlength]
  exact hperm

/-- C8, counterexample to the claim as stated: with `view_size = 1`, a
resident view holding one entry of age 0 (so the whole buffer ties at
age 0), and the random permutation that puts the local entry first, the
oldest-to-tail step moves the local entry to the tail and the
truncation drops it: the returned buffer contains no entry with the
local id, not exactly one. -/
theorem buffer_self_inclusion_counterexample :
    ¬ ((build_local_view_buffer (PeerSamplingConfig.mk 1 0 0 0 0 true true)
        (View.mk 0 0 [Peer.mk 1 1 0]) [1]).countP (fun q => q.id == 0) = 1) := by
  decide

theorem oldestPeer?_eq_none : ∀ {l : List Peer}, oldestPeer? l = none → l = [] := by
  intro l h
  cases l with
  | nil => rfl
  | cons p ps =>
    exfalso
    simp only [oldestPeer?] at h
    cases hops : oldestPeer? ps with
    | none => rw [hops] at h; simp at h
    | some q => rw [hops] at h; by_cases hgt : q.age > p.age <;> simp [hgt] at h

theorem oldestPeer?_age_ge : ∀ {l : List Peer} {x : Peer}, oldestPeer? l = some x →
    ∀ q ∈ l, q.age ≤ x.age := by
  intro l
  induction l with
  | nil => intro x h q hq; simp at hq
  | cons p ps ih =>
    intro x h q hq
    simp only [oldestPeer?] at h
    cases hops : oldestPeer? ps with
    | none =>
      rw [hops] at h
      simp only [Option.some.injEq] at h
      have hps : ps = [] := oldestPeer?_eq_none hops
      subst hps
      rw [List.mem_singleton] at hq
      rw [hq, ← h]
    | some m =>
      rw [hops] at h
      by_cases hgt : m.age > p.age
      · simp only [hgt, if_true, Option.some.injEq] at h
        subst h
        rcases List.mem_cons.mp hq with hq | hq
        · rw [hq]; exact Nat.le_of_lt hgt
        · exact ih hops q hq
      · simp only [hgt, if_false, Option.some.injEq] at h
        subst h
        rcases List.mem_cons.mp hq with hq | hq
        · rw [hq]
        · exact Nat.le_trans (ih hops q hq) (Nat.le_of_not_lt hgt)

theorem move_oldest_to_end_peers_of_some (v : View) (x : Peer)
    (hx : oldestPeer? v.peers = some x) :
    (View.move_oldest_to_end v).peers = v.peers.erase x ++ [x] := by
  unfold View.move_oldest_to_end
  rw [hx]

theorem take_erase_oldest (L : List Peer) (x : Peer) (hmem : x ∈ L) (c : Nat)
    (hc : L.length = c + 1) :
    (L.erase x ++ [x]).take c = L.erase x := by
  have hlen : (L.erase x).length = c := by
    rw [List.length_erase_of_mem hmem, hc]
    omega
  rw [← hlen, List.take_left]

theorem countP_erase_of_mem (L : List Peer) (x : Peer) (hmem : x ∈ L)
    (p : Peer → Bool) (hpx : p x = false) :
    (L.erase x).countP p = L.countP p := by
  have h := (List.perm_cons_erase hmem).countP_eq p
  rw [List.countP_cons, hpx] at h
  simpa using h.symm

theorem countP_self_append (view : View)
    (hno : ∀ q ∈ view.peers, q.id ≠ view.local_id) :
    (view.peers ++ [Peer.mk view.local_id view.local_address 0]).countP
        (fun q => q.id == view.local_id) = 1
    ∧ (view.peers ++ [Peer.mk view.local_id view.local_address 0]).countP
        (fun q => q.id == view.local_id && q.age == 0) = 1 := by
  constructor
  · rw [List.countP_append]
    have h0 : view.peers.countP (fun q => q.id == view.local_id) = 0 := by
      refine List.countP_eq_zero.mpr ?_
      intro q hq
      simpa using hno q hq
    rw [h0]
    simp [List.countP_cons]
  · rw [List.countP_append]
    have h0 : view.peers.countP (fun q => q.id == view.local_id && q.age == 0) = 0 := by
      refine List.countP_eq_zero.mpr ?_
      intro q hq
      simp [hno q hq]
    rw [h0]
    simp [List.countP_cons]

theorem buffer_counts_of_lt (cfg : PeerSamplingConfig) (view : View) (rand : List Nat)
    (hlt : view.peers.length < cfg.view_size)
    (hno : ∀ q ∈ view.peers, q.id ≠ view.local_id) :
    (build_local_view_buffer cfg view rand).countP (fun q => q.id == view.local_id) = 1
    ∧ (build_local_view_buffer cfg view rand).countP
        (fun q => q.id == view.local_id && q.age == 0) = 1 := by
  have hperm := buffer_perm_of_lt cfg view rand hlt
  constructor
  · rw [hperm.countP_eq]
    exact (countP_self_append view hno).1
  · rw [hperm.countP_eq]
    exact (countP_self_append view hno).2

/-- C8, amended: for every configuration and every view whose resident
entries carry no entry with the local id and number at most `view_size`,
and which either has strictly fewer than `view_size` entries or contains
an entry of age at least 1, the buffer returned by
`build_local_view_buffer` contains exactly one entry with the local id,
and that entry has age 0; in particular this holds for the empty view
whenever `view_size ≥ 1`, and for every at-capacity view in which some
resident entry has already aged (the age-0 local entry can then never be
the oldest entry moved to the truncated tail). -/
theorem buffer_self_inclusion (cfg : PeerSamplingConfig) (view : View) (rand : List Nat)
    (hlen : view.peers.length ≤ cfg.view_size)
    (hno : ∀ q ∈ view.peers, q.id ≠ view.local_id)
    (hcase : view.peers.length < cfg.view_size ∨ ∃ q ∈ view.peers, 1 ≤ q.age) :
    (build_local_view_buffer cfg view rand).countP (fun q => q.id == view.local_id) = 1
    ∧ (build_local_view_buffer cfg view rand).countP
        (fun q => q.id == view.local_id && q.age == 0) = 1 := by
  rcases hcase with hlt | ⟨q, hq, hage⟩
  · exact buffer_counts_of_lt cfg view rand hlt hno
  · by_cases hlt : view.peers.length < cfg.view_size
    · exact buffer_counts_of_lt cfg view rand hlt hno
    · have hc : view.peers.length = cfg.view_size := Nat.le_antisymm hlen (Nat.le_of_not_lt hlt)
      have hLlen :
          (shuffle rand (view.peers ++ [Peer.mk view.local_id view.local_address 0])).length
            = cfg.view_size + 1 := by
        rw [(shuffle_perm rand _).length_eq, List.length_append, List.length_singleton, hc]
      obtain ⟨x, hx⟩ : ∃ y, oldestPeer?
          (shuffle rand (view.peers ++ [Peer.mk view.local_id view.local_address 0])) = some y := by
        cases ho : oldestPeer?
            (shuffle rand (view.peers ++ [Peer.mk view.local_id view.local_address 0])) with
        | none =>
          exfalso
          rw [oldestPeer?_eq_none ho] at hLlen
          simp at hLlen
        | some y => exact ⟨y, rfl⟩
      have hxL : x ∈ shuffle rand (view.peers ++ [Peer.mk view.local_id view.local_address 0]) :=
        oldestPeer?_mem hx
      have hbuf : build_local_view_buffer cfg view rand
          = (shuffle rand (view.peers ++ [Peer.mk view.local_id view.local_address 0])).erase x := by
        rw [build_local_view_buffer_eq, move_oldest_to_end_peers_of_some _ x hx]
        exact take_erase_oldest _ x hxL cfg.view_size hLlen
      have hxA : x ∈ view.peers ++ [Peer.mk view.local_id view.local_address 0] :=
        (shuffle_perm rand _).mem_iff.mp hxL
      have hqL : q ∈ shuffle rand (view.peers ++ [Peer.mk view.local_id view.local_address 0]) :=
        (shuffle_perm rand _).mem_iff.mpr (List.mem_append.mpr (Or.inl hq))
      have hxage : 1 ≤ x.age := Nat.le_trans hage (oldestPeer?_age_ge hx q hqL)
      have hxid : x.id ≠ view.local_id := by
        rcases List.mem_append.mp hxA with hxp | hxl
        · exact hno x hxp
        · rw [List.mem_singleton] at hxl
          rw [hxl] at hxage
          simp at hxage
      have hpx1 : (fun q => q.id == view.local_id) x = false := by
        simpa using hxid
      have hpx2 : (fun q => q.id == view.local_id && q.age == 0) x = false := by
        simp only
        rw [Bool.and_eq_false_iff]
        left
        simpa using hxid
      constructor
      · rw [hbuf, countP_erase_of_mem _ x hxL _ hpx1, (shuffle_perm rand _).countP_eq]
        exact (countP_self_append view hno).1
      · rw [hbuf, countP_erase_of_mem _ x hxL _ hpx2, (shuffle_perm rand _).countP_eq]
        exact (countP_self_append view hno).2

/-- C8 witness: the amended statement applied to a concrete
configuration and an at-capacity view containing an aged entry. -/
theorem buffer_self_inclusion_witness :
    (View.mk 5 6 [Peer.mk 1 1 4, Peer.mk 2 2 0] : View).peers.length
        ≤ (PeerSamplingConfig.mk 2 0 0 0 0 true true).view_size
    ∧ (∀ q ∈ (View.mk 5 6 [Peer.mk 1 1 4, Peer.mk 2 2 0] : View).peers,
        q.id ≠ (View.mk 5 6 [Peer.mk 1 1 4, Peer.mk 2 2 0] : View).local_id)
    ∧ ((View.mk 5 6 [Peer.mk 1 1 4, Peer.mk 2 2 0] : View).peers.length
          < (PeerSamplingConfig.mk 2 0 0 0 0 true true).view_size
        ∨ ∃ q ∈ (View.mk 5 6 [Peer.mk 1 1 4, Peer.mk 2 2 0] : View).peers, 1 ≤ q.age)
    ∧ (build_local_view_buffer (PeerSamplingConfig.mk 2 0 0 0 0 true true)
        (View.mk 5 6 [Peer.mk 1 1 4, Peer.mk 2 2 0]) [0]).countP (fun q => q.id == 5) = 1
    ∧ (build_local_view_buffer (PeerSamplingConfig.mk 2 0 0 0 0 true true)
        (View.mk 5 6 [Peer.mk 1 1 4, Peer.mk 2 2 0]) [0]).countP
          (fun q => q.id == 5 && q.age == 0) = 1 := by
  refine ⟨by decide, by decide, by decide, ?_⟩
  exact buffer_self_inclusion (PeerSamplingConfig.mk 2 0 0 0 0 true true)
    (View.mk 5 6 [Peer.mk 1 1 4, Peer.mk 2 2 0]) [0] (by decide) (by decide) (by decide)

/-- C9: for every view satisfying the `View` data-model invariants
(pairwise distinct entry ids, none equal to the local id) and every
bound `n`, the pipeline `head(n, move_oldest_to_end(permute(add_with_local(view))))`
yields a sequence of length `min(n, len(view)+1)` with no duplicate
ids, for every random choice. -/
theorem buffer_pipeline_length_nodup (v : View) (n : Nat) (rand : List Nat)
    (hnodup : (v.peers.map Peer.id).Nodup)
    (hno : v.local_id ∉ v.peers.map Peer.id) :
    (((v.add_with_local.permute rand).move_oldest_to_end).head n).length
        = min n (v.peers.length + 1)
    ∧ ((((v.add_with_local.permute rand).move_oldest_to_end).head n).map Peer.id).Nodup := by
  have hperm := buffer_stage_perm v rand
  constructor
  · show (List.take n _).length = _
    rw [List.length_take, hperm.length_eq, List.length_append, List.length_singleton]
  · have hnd : (((v.add_with_local.permute rand).move_oldest_to_end).peers.map Peer.id).Nodup := by
      refine ((hperm.map Peer.id).nodup_iff).mpr ?_
      rw [List.map_append]
      simp only [List.map_singleton]
      rw [List.nodup_append]
      refine ⟨hnodup, List.nodup_singleton _, ?_⟩
      intro a ha hb
      rw [List.mem_singleton] at hb
      exact hno (hb ▸ ha)
    exact hnd.sublist ((List.take_sublist _ _).map Peer.id)

/-- C9 witness: the pipeline shape statement applied to a concrete view,
bound and random choice. -/
theorem buffer_pipeline_length_nodup_witness :
    ((View.mk 0 0 [Peer.mk 1 1 2] : View).peers.map Peer.id).Nodup
    ∧ (View.mk 0 0 [Peer.mk 1 1 2] : View).local_id
        ∉ ((View.mk 0 0 [Peer.mk 1 1 2] : View).peers.map Peer.id)
    ∧ ((((View.mk 0 0 [Peer.mk 1 1 2] : View).add_with_local.permute [1]).move_oldest_to_end).head 5).length
        = min 5 ((View.mk 0 0 [Peer.mk 1 1 2] : View).peers.length + 1)
    ∧ (((((View.mk 0 0 [Peer.mk 1 1 2] : View).add_with_local.permute [1]).move_oldest_to_end).head 5).map Peer.id).Nodup := by
  refine ⟨by decide, by decide, ?_⟩
  exact buffer_pipeline_length_nodup (View.mk 0 0 [Peer.mk 1 1 2]) 5 [1]
    (by decide) (by decide)

/-- C3 witness: the no-self-entry invariant applied to a concrete
reachable state whose merge input contains the local id. -/
theorem no_self_entry_reachable_witness :
    (∀ p ∈ [Peer.mk 1 1 0], p.id ≠ 0)
    ∧ Reachable 0 9 [Peer.mk 1 1 0]
        (((View.new 0 9 [Peer.mk 1 1 0]).select 3 1 1
          [Peer.mk 0 0 0, Peer.mk 2 2 4] []).increase_age)
    ∧ hasSelfEntry 0 (((View.new 0 9 [Peer.mk 1 1 0]).select 3 1 1
          [Peer.mk 0 0 0, Peer.mk 2 2 4] []).increase_age) = false := by
  refine ⟨by decide,
    Reachable.age (Reachable.sel 3 1 1 [Peer.mk 0 0 0, Peer.mk 2 2 4] [] Reachable.base), ?_⟩
  exact no_self_entry_reachable 0 9 [Peer.mk 1 1 0] _ (by decide)
    (Reachable.age (Reachable.sel 3 1 1 [Peer.mk 0 0 0, Peer.mk 2 2 4] [] Reachable.base))

/-- C7 witness: the send-failure statement applied to one concrete
configuration, view and message. -/
theorem send_failure_nonfatal_witness :
    View.select_peer (View.mk 0 0 [Peer.mk 2 2 1]) = some (Peer.mk 2 2 1)
    ∧ ((run_receiver_step 0 (PeerSamplingConfig.mk 2 1 1 50 5 true false)
          (View.mk 0 0 [Peer.mk 2 2 1]) 1 MessageKind.response none [0] [] false).view
        = (run_receiver_step 0 (PeerSamplingConfig.mk 2 1 1 50 5 true false)
          (View.mk 0 0 [Peer.mk 2 2 1]) 1 MessageKind.response none [0] [] true).view
      ∧ (run_sender_step 0 (PeerSamplingConfig.mk 2 1 1 50 5 true false)
          (View.mk 0 0 [Peer.mk 2 2 1]) [0] 3 false).view
        = (run_sender_step 0 (PeerSamplingConfig.mk 2 1 1 50 5 true false)
          (View.mk 0 0 [Peer.mk 2 2 1]) [0] 3 true).view
      ∧ (run_receiver_step 0 (PeerSamplingConfig.mk 2 1 1 50 5 true false)
          (View.mk 0 0 [Peer.mk 2 2 1]) 1 MessageKind.response none [0] [] false).sends.length ≤ 1
      ∧ (run_sender_step 0 (PeerSamplingConfig.mk 2 1 1 50 5 true false)
          (View.mk 0 0 [Peer.mk 2 2 1]) [0] 3 false).sends.length ≤ 1
      ∧ Warn.sendFailed ∈ (run_receiver_step 0 (PeerSamplingConfig.mk 2 1 1 50 5 true true)
          (View.mk 0 0 [Peer.mk 2 2 1]) 1 MessageKind.request none [0] [] false).warns
      ∧ Warn.sendFailed ∈ (run_sender_step 0 (PeerSamplingConfig.mk 2 1 1 50 5 true false)
          (View.mk 0 0 [Peer.mk 2 2 1]) [0] 3 false).warns) := by
  refine ⟨by decide, ?_⟩
  exact send_failure_nonfatal 0 1 (PeerSamplingConfig.mk 2 1 1 50 5 true false)
    (View.mk 0 0 [Peer.mk 2 2 1]) MessageKind.response none [0] [] 3 false
    (Peer.mk 2 2 1) (by decide)

end Gossip
